import Mathlib

/-!
# Verification of the `gemini_banana` recommendation backend

A shallow embedding, in Lean, of the decision-making core of the
`backend_py` package:

* `app/services/catalog.py` — keyword scoring, category-scoped search,
  price/tag filtering, catalog statistics;
* `app/routes/recommend.py` — the rerank-reconciliation algorithm of
  `recommend_from_upload`;
* `app/services/gemini_image_service.py` — the key-rotating retry loop of
  `generate_virtual_try_on_image`;
* `app/services/llm_ranker.py` — the reply-extraction and id-normalisation
  logic of `LLMRanker.rerank`.

Modelling conventions:

* Python `str` values are embedded as `List Char` (sequences of Unicode code
  points) so that every string operation is structurally recursive and
  kernel-evaluable.
* Python `float` scores produced by `_score_product` are always multiples of
  `0.5` and far below the range where IEEE-754 addition could round, so the
  arithmetic of the source is exact; scores are embedded as `Nat` counted in
  half-units (a Python score `s` is stored as `2*s`).  Score thresholds may be
  arbitrary floats and are embedded as `Rat` (every float is a rational);
  the comparison `s > score_threshold` is embedded by `halfLt`, with the
  bridge lemma `halfLt_eq_true_iff` relating it to the rational inequality.
* Python's `list.sort(key=..., reverse=True)` is a stable descending sort;
  it is embedded as the stable insertion sort `sortDesc` (stability is proved,
  not assumed: `sortDesc_stable`).
* `CatalogService` read operations are embedded twice, at two levels of
  fidelity over the same source lines: a value-level version (`search`,
  `findSimilar`) used for the functional claims, and a heap-instrumented
  version (`searchH`, `findSimilarH`) in which Python dicts live at explicit
  heap addresses and `copy = dict(product)` is an allocation, used for the
  frame claim that reads never mutate the stored catalog.
* External calls (the Gemini/Azure clients, `json.loads`) are modelled as
  oracle parameters: an attempt function `f : key → attempt → Except Str α`
  for the image service and a parse function `loads : Str → Option Json` for
  the reranker; an exception raised by the external code is an `error`/`none`
  outcome.

The file is one development: all definitions first, then the lemmas and the
claim theorems.
-/

/-! ## Python string primitives -/

/-- A Python `str`, as a list of Unicode code points. -/
abbrev Str := List Char

/-- Python `s.lower()` (ASCII case folding, which covers the catalog data). -/
def lowerStr (s : Str) : Str := s.map Char.toLower

/-- Python `s.strip()`: remove leading and trailing whitespace. -/
def trimStr (s : Str) : Str :=
  ((s.dropWhile Char.isWhitespace).reverse.dropWhile Char.isWhitespace).reverse

/-- Python `pat in text` for strings: `pat` occurs as a contiguous substring
of `text` (the empty pattern occurs in every text, as in Python). -/
def strContains : Str → Str → Bool
  | [], pat => pat.isPrefixOf ([] : Str)
  | c :: rest, pat => pat.isPrefixOf (c :: rest) || strContains rest pat

/-- Helper for `splitWs`: accumulates the current piece (reversed). -/
def splitWsAux : Str → Str → List Str
  | [], cur => [cur.reverse]
  | c :: rest, cur =>
    if c.isWhitespace then cur.reverse :: splitWsAux rest []
    else splitWsAux rest (c :: cur)

/-- Python `s.split()` (no separator): split on whitespace runs and drop the
empty pieces. -/
def splitWs (s : Str) : List Str := (splitWsAux s []).filter (fun t => !t.isEmpty)

/-- Fuelled worker for `splitOnSep`; the fuel is the length of the remaining
text, so the recursion is structural and kernel-evaluable. -/
def splitOnSepFuel (sep : Str) : Nat → Str → Str → List Str
  | 0, s, cur => [cur.reverse ++ s]
  | fuel + 1, s, cur =>
    match s with
    | [] => [cur.reverse]
    | c :: rest =>
      if sep.isPrefixOf (c :: rest) then
        cur.reverse :: splitOnSepFuel sep fuel (List.drop (sep.length - 1) rest) []
      else splitOnSepFuel sep fuel rest (c :: cur)

/-- Python `s.split(sep)` for a non-empty separator: left-to-right,
non-overlapping occurrences. -/
def splitOnSep (sep : Str) (s : Str) : List Str := splitOnSepFuel sep s.length s []

/-! ## Data model

A catalog product record (a `data/catalog.json` entry after the normalisation
performed by `CatalogService._load`, which fills missing `tags`/`title`/
`category` with empty defaults).  The optional `"score"` dictionary key that
`search` attaches to result copies is modelled by the `score` field
(`none` = key absent); its value is kept in half-units as explained above. -/

structure Product where
  id : Str
  title : Str
  tags : List Str
  category : Str
  price : Int
  score : Option Nat := none
deriving DecidableEq, Repr

/-- The fixed category tuple of `CatalogServiceConfig.categories`
(catalog.py:20). -/
def defaultCategories : List Str :=
  ["top".data, "pants".data, "shoes".data, "accessories".data]

/-! ## Scoring — `CatalogService._score_product` (catalog.py:77-88) -/

/-- The text a product is matched against, catalog.py:78:
`f"{product.get('title','')} {' '.join(product.get('tags', []))}".lower()`. -/
def itemText (p : Product) : Str :=
  lowerStr (p.title ++ [' '] ++ List.intercalate [' '] p.tags)

/-- `CatalogService._score_product` (catalog.py:77-88), in half-units:
`+2` for a full keyword substring match (Python `+1.0`), `+1` for a
whitespace-token partial match (Python `+0.5`).  The token generator guard
`if tok and tok in item_text` is the `!tok.isEmpty && strContains _ tok`
condition. -/
def scoreProduct (p : Product) (keywords : List Str) : Nat :=
  keywords.foldl (fun score kw =>
    if strContains (itemText p) (lowerStr kw) then score + 2
    else if (splitWs (lowerStr kw)).any
        (fun tok => !tok.isEmpty && strContains (itemText p) tok) then score + 1
    else score) 0

/-- Decides the Python float comparison `s > score_threshold` of
catalog.py:99, where `s2` is a score in half-units and `thr` the threshold:
`thr < s2 / 2`, cleared of rational division so that it evaluates in the
kernel. -/
def halfLt (thr : Rat) (s2 : Nat) : Bool :=
  decide (thr.num * 2 < (s2 : Int) * (thr.den : Int))

/-! ## Stable descending sort — Python `results.sort(key=lambda t: t[0], reverse=True)`

Python's sort is stable, and `reverse=True` preserves the original order of
equal keys.  `sortDesc` is the stable insertion sort realising exactly that
specification: each element is inserted *after* all previously placed elements
of greater-or-equal key. -/

/-- Insert `x` into a descending-sorted list, after all entries whose key is
greater than or equal to `key x`. -/
def insertDesc (key : α → Nat) (x : α) : List α → List α
  | [] => [x]
  | y :: ys => if key y < key x then x :: y :: ys else y :: insertDesc key x ys

/-- Stable sort by descending key (ties keep first-seen order). -/
def sortDesc (key : α → Nat) (l : List α) : List α :=
  l.foldl (fun acc x => insertDesc key x acc) []

/-- Unfolded recursion of `sortDesc`'s fold, for induction. -/
def sortDescGo (key : α → Nat) : List α → List α → List α
  | [], acc => acc
  | x :: xs, acc => sortDescGo key xs (insertDesc key x acc)

/-! ## Search — `CatalogService.search` (catalog.py:90-104) -/

/-- The keyword normalisation of catalog.py:93:
`[k.strip().lower() for k in keywords if k and k.strip()]`. -/
def normalizeKeywords (keywords : List Str) : List Str :=
  (keywords.filter (fun k => !k.isEmpty && !(trimStr k).isEmpty)).map
    (fun k => lowerStr (trimStr k))

/-- The `results` list built by the loop of catalog.py:95-102: for each catalog
product in iteration order, keep it when its category is requested and its
score strictly exceeds the threshold, paired with its score and carrying a
copy with the `"score"` key set (`copy = dict(product); copy["score"] = s`). -/
def eligiblePairs (catalog : List Product) (normalized : List Str)
    (categories : List Str) (thr : Rat) : List (Nat × Product) :=
  catalog.filterMap (fun p =>
    if p.category ∈ categories then
      if halfLt thr (scoreProduct p normalized) = true then
        some (scoreProduct p normalized, { p with score := some (scoreProduct p normalized) })
      else none
    else none)

/-- `CatalogService.search` (catalog.py:90-104): normalise keywords, collect
eligible scored copies, stable-sort by score descending, truncate, and return
the products.  (Every caller in the claims passes an explicit category list,
as `find_similar` does; the `categories or config.categories` default is
applied at the call sites.) -/
def search (catalog : List Product) (keywords : List Str) (categories : List Str)
    (maxResults : Nat) (scoreThreshold : Rat) : List Product :=
  ((sortDesc Prod.fst
      (eligiblePairs catalog (normalizeKeywords keywords) categories scoreThreshold)).take
    maxResults).map Prod.snd

/-! ## Spec-side scoring (the wording of the spec's `score` contract) -/

/-- Per-keyword score contribution as the spec states it, as an exact
rational: `1.0` on a full match, else `0.5` on a token match, else `0`. -/
def keywordContribution (p : Product) (kw : Str) : Rat :=
  if strContains (itemText p) (lowerStr kw) then 1
  else if (splitWs (lowerStr kw)).any
      (fun tok => !tok.isEmpty && strContains (itemText p) tok) then 1 / 2
  else 0

/-- The same contribution in half-units, bridging `scoreProduct`'s fold. -/
def keywordContribution2 (p : Product) (kw : Str) : Nat :=
  if strContains (itemText p) (lowerStr kw) then 2
  else if (splitWs (lowerStr kw)).any
      (fun tok => !tok.isEmpty && strContains (itemText p) tok) then 1
  else 0

/-! ## Example products (the spec's two-product example catalog) -/

def teeProduct : Product :=
  { id := "t1".data
    title := "Casual Cotton Tee".data
    tags := ["casual".data, "cotton".data]
    category := "top".data
    price := 25000 }

def sweaterProduct : Product :=
  { id := "t2".data
    title := "Wool Sweater".data
    tags := ["wool".data, "formal".data]
    category := "top".data
    price := 40000 }

/-! ## Reconciliation — `recommend_from_upload` (recommend.py:108-122) -/

/-- recommend.py:111: `idx = {str(p["id"]): p for p in candidate_recs[cat]}`
with `_id in idx` / `idx[_id]`.  A later candidate with the same id overwrites
an earlier one in the dict comprehension, so the lookup returns the *last*
matching candidate.  (Catalog ids are strings, so `str(...)` is the
identity.) -/
def lookupId (cands : List Product) (i : Str) : Option Product :=
  cands.reverse.find? (fun p => p.id == i)

/-- recommend.py:112-114: walk the reranked id list in order, appending the
candidate for each id found in `idx` and silently skipping unknown ids. -/
def rerankPhase (cands : List Product) (ids : List Str) : List Product :=
  ids.foldl (fun acc i =>
    match lookupId cands i with
    | some p => acc ++ [p]
    | none => acc) []

/-- recommend.py:118-122, the fill loop body: `for p in candidate_recs[cat]:`
append `p` when not already present (`p not in recs[cat]`, dict equality),
then `break` once `max_k` is reached (the break test runs after the
conditional append). -/
def fillLoop (maxK : Nat) : List Product → List Product → List Product
  | [], acc => acc
  | p :: rest, acc =>
    if maxK ≤ (if p ∈ acc then acc else acc ++ [p]).length then
      (if p ∈ acc then acc else acc ++ [p])
    else fillLoop maxK rest (if p ∈ acc then acc else acc ++ [p])

/-- recommend.py:108-122, per category: the rerank phase, then — only `if
len(recs[cat]) < max_k` — the fill loop over the original candidates. -/
def reconcile (maxK : Nat) (cands : List Product) (ids : List Str) : List Product :=
  if (rerankPhase cands ids).length < maxK then fillLoop maxK cands (rerankPhase cands ids)
  else rerankPhase cands ids

/-- The rerank phase as the spec words it: "walk the reranked id list in
order; for each id present in that category's candidates, append it". -/
def specRerankPhase (cands : List Product) (ids : List Str) : List Product :=
  ids.filterMap (lookupId cands)

/-- The fill phase as the spec words it: "while the output is shorter than
`maxPerCategory`, continue filling from the original candidate order,
skipping any already included". -/
def specFill (maxK : Nat) : List Product → List Product → List Product
  | [], acc => acc
  | p :: rest, acc =>
    if acc.length < maxK then
      if p ∈ acc then specFill maxK rest acc else specFill maxK rest (acc ++ [p])
    else acc

/-- Example candidates A, B, C for the reconciliation claims. -/
def prodA : Product :=
  { id := "A".data, title := "Item A".data, tags := [], category := "top".data, price := 10 }

def prodB : Product :=
  { id := "B".data, title := "Item B".data, tags := [], category := "top".data, price := 20 }

def prodC : Product :=
  { id := "C".data, title := "Item C".data, tags := [], category := "top".data, price := 30 }

/-! ## find_similar — `CatalogService.find_similar` (catalog.py:106-132) -/

/-- The style-analysis mapping: the closed set of facet keys read by
catalog.py:111 (`tags, captions, top, pants, shoes, overall_style,
detected_style, colors, categories`); a missing key (or a non-list value,
which the `isinstance` check skips) is `none`. -/
structure Analysis where
  tags : Option (List Str) := none
  captions : Option (List Str) := none
  top : Option (List Str) := none
  pants : Option (List Str) := none
  shoes : Option (List Str) := none
  overall_style : Option (List Str) := none
  detected_style : Option (List Str) := none
  colors : Option (List Str) := none
  categories : Option (List Str) := none

/-- catalog.py:109-114: flatten the facet lists, in the fixed key order, into
one keyword sequence (`str(v)` is the identity on the string values). -/
def analysisKeywords (a : Analysis) : List Str :=
  (a.tags.getD []) ++ (a.captions.getD []) ++ (a.top.getD []) ++ (a.pants.getD []) ++
    (a.shoes.getD []) ++ (a.overall_style.getD []) ++ (a.detected_style.getD []) ++
    (a.colors.getD []) ++ (a.categories.getD [])

/-- Python's `x or d` on an optional integer: `None` *and zero* are falsy and
give the default. -/
def pyOrInt (o : Option Int) (d : Int) : Int :=
  match o with
  | none => d
  | some v => if v = 0 then d else v

/-- The price predicate of catalog.py:121:
`(min_price or 0) <= int(p.get("price", 0)) <= (max_price or 1_000_000_000)`. -/
def priceInRange (minPrice maxPrice : Option Int) (p : Product) : Bool :=
  pyOrInt minPrice 0 ≤ p.price && p.price ≤ pyOrInt maxPrice 1000000000

/-- catalog.py:123-124: whether the product's lower-cased tag set meets the
lower-cased excluded-tag set. -/
def excludedBy (excludeTags : List Str) (p : Product) : Bool :=
  p.tags.any (fun t => (excludeTags.map lowerStr).contains (lowerStr t))

/-- catalog.py:120-121: the price filter runs only when at least one bound was
supplied (`if min_price is not None or max_price is not None`). -/
def pyPriceFilter (minPrice maxPrice : Option Int) (ps : List Product) : List Product :=
  if minPrice.isSome || maxPrice.isSome then ps.filter (priceInRange minPrice maxPrice) else ps

/-- catalog.py:122-124: the excluded-tag filter runs only when `exclude_tags`
is truthy (`None` and the empty list are both falsy). -/
def pyTagFilter (excludeTags : Option (List Str)) (ps : List Product) : List Product :=
  match excludeTags with
  | some ex => if ex.isEmpty then ps else ps.filter (fun p => !excludedBy ex p)
  | none => ps

/-- catalog.py:128-129: `p.pop("score", None)` on a result copy. -/
def popScore (p : Product) : Product := { p with score := none }

/-- catalog.py:127-129: drop the `"score"` key from each result when
`include_score` is false. -/
def scoreStrip (includeScore : Bool) (ps : List Product) : List Product :=
  if includeScore then ps else ps.map popScore

/-- `CatalogService.find_similar` (catalog.py:106-132): per configured
category, search with the flattened keywords and a 3x oversampled limit,
apply the price and excluded-tag filters, truncate to `max_per_category`,
and optionally strip scores. -/
def findSimilar (catalog : List Product) (a : Analysis) (maxPerCat : Nat)
    (includeScore : Bool) (minPrice maxPrice : Option Int)
    (excludeTags : Option (List Str)) : List (Str × List Product) :=
  defaultCategories.map (fun cat =>
    (cat, scoreStrip includeScore
      ((pyTagFilter excludeTags (pyPriceFilter minPrice maxPrice
        (search catalog (analysisKeywords a) [cat] (maxPerCat * 3) 0))).take maxPerCat)))

/-- A style analysis whose only facet is the tag `"casual"`. -/
def analysisCasual : Analysis := { tags := some ["casual".data] }

/-! ## Resilient invoker — `GeminiImageService.generate_virtual_try_on_image`
(gemini_image_service.py:92-113)

The external call is an oracle `f : key → attempt index → Except Str α`
(deterministic per `(key, attempt)` pair, which the loop visits at most once,
so this captures any single execution).  The observable behaviour is the
event trace — calls and backoff sleeps — plus the final outcome;
`Except.error none` models the unreachable `assert last_error is not None`
falling through with no attempt made. -/

inductive GenEvent (K : Type) where
  | call : K → Nat → GenEvent K
  | sleep : Nat → GenEvent K
deriving DecidableEq, Repr

/-- gemini_image_service.py:105-106: the credential-invalid classification of
`str(e).lower()` against the three authentication-rejection patterns. -/
def isInvalidKeyMsg (e : Str) : Bool :=
  strContains (lowerStr e) "api key not valid".data ||
    strContains (lowerStr e) "api_key_invalid".data ||
    strContains (lowerStr e) "invalid api key".data

/-- The inner attempt loop for one key, over the remaining attempt indices
(gemini_image_service.py:95-109): on success return; on a credential-invalid
error `break`; otherwise record the error, sleep `2 ** attempt` when attempts
remain, and retry.  Returns the events, the success value, and the last error
recorded within this key. -/
def tryKeyAux {K α : Type} (f : K → Nat → Except Str α) (R : Nat) (k : K) :
    List Nat → List (GenEvent K) × Option α × Option Str
  | [] => ([], none, none)
  | a :: rest =>
    match f k a with
    | Except.ok v => ([GenEvent.call k a], some v, none)
    | Except.error e =>
      if isInvalidKeyMsg e then ([GenEvent.call k a], none, some e)
      else
        (GenEvent.call k a :: ((if a < R then [GenEvent.sleep (2 ^ a)] else []) ++
            (tryKeyAux f R k rest).1),
          (tryKeyAux f R k rest).2.1,
          some (((tryKeyAux f R k rest).2.2).getD e))

/-- The outer key loop (gemini_image_service.py:94-113): iterate keys, running
attempts `1..max_retries` per key, carrying `last_error` across keys; when all
keys are exhausted, raise the carried error (`Except.error`). -/
def runKeysAux {K α : Type} (f : K → Nat → Except Str α) (R : Nat) :
    List K → Option Str → List (GenEvent K) × Except (Option Str) α
  | [], lastErr => ([], Except.error lastErr)
  | k :: ks, lastErr =>
    match tryKeyAux f R k (List.range' 1 R) with
    | (evs, some v, _) => (evs, Except.ok v)
    | (evs, none, some e) =>
      (evs ++ (runKeysAux f R ks (some e)).1, (runKeysAux f R ks (some e)).2)
    | (evs, none, none) =>
      (evs ++ (runKeysAux f R ks lastErr).1, (runKeysAux f R ks lastErr).2)

/-- The whole retry loop of `generate_virtual_try_on_image`, started with
`last_error = None`. -/
def generateTryOn {K α : Type} (f : K → Nat → Except Str α) (R : Nat) (keys : List K) :
    List (GenEvent K) × Except (Option Str) α :=
  runKeysAux f R keys none

/-- The call events of a trace, in order. -/
def callsOf {K : Type} : List (GenEvent K) → List (K × Nat) :=
  List.filterMap (fun e => match e with
    | GenEvent.call k a => some (k, a)
    | GenEvent.sleep _ => none)

/-- Concrete attempt oracle for the invalid-key witness: key 0 is rejected as
invalid, key 1 succeeds. -/
def fWitC6 : Nat → Nat → Except Str Unit := fun k _ =>
  if k = 0 then Except.error "API key not valid.".data else Except.ok ()

/-- Distinct error messages per `(key, attempt)` for the last-error witness. -/
def errW7 (k a : Nat) : Str := List.replicate (10 * k + a) 'x'

/-- Concrete attempt oracle that always fails with `errW7`. -/
def fW7 : Nat → Nat → Except Str Unit := fun k a => Except.error (errW7 k a)

/-! ## Reranker adapter — `LLMRanker.rerank` (llm_ranker.py:44-140) -/

/-- Parsed JSON values, the domain of the `json.loads` oracle.  JSON numbers
are modelled as integers, which covers every identifier shape the adapter's
claims exercise. -/
inductive Json where
  | null : Json
  | bool : Bool → Json
  | num : Int → Json
  | str : Str → Json
  | arr : List Json → Json
  | obj : List (Str × Json) → Json

/-- `data.get(cat)` on a parsed JSON object: a duplicate key is won by its
last occurrence, as in a Python dict built left to right. -/
def objGet (fields : List (Str × Json)) (k : Str) : Option Json :=
  (fields.reverse.find? (fun f => f.1 == k)).map Prod.snd

/-- Python truthiness of a parsed JSON value. -/
def pyTruthy : Json → Bool
  | Json.null => false
  | Json.bool b => b
  | Json.num n => n != 0
  | Json.str s => !s.isEmpty
  | Json.arr xs => !xs.isEmpty
  | Json.obj fs => !fs.isEmpty

/-- Python `str(x)` on a parsed JSON value (llm_ranker.py:136).  Identifiers
coming back from the model are strings or numbers; the container cases carry
marker text only and are not exercised by any claim. -/
def pyStr : Json → Str
  | Json.null => "None".data
  | Json.bool true => "True".data
  | Json.bool false => "False".data
  | Json.num n => (toString n).data
  | Json.str s => s
  | Json.arr _ => "<list>".data
  | Json.obj _ => "<dict>".data

/-- Python iteration over a parsed JSON value: lists yield elements, strings
yield one-character strings, dicts yield their keys, and scalars raise
`TypeError` (`none`). -/
def pyIter : Json → Option (List Json)
  | Json.arr xs => some xs
  | Json.str s => some (s.map (fun c => Json.str [c]))
  | Json.obj fs => some (fs.map (fun f => Json.str f.1))
  | _ => none

/-- llm_ranker.py:135: `ids = data.get(cat) or []` — a missing *or falsy*
value becomes the empty list. -/
def pyOrList (o : Option Json) : Json :=
  match o with
  | none => Json.arr []
  | some v => if pyTruthy v then v else Json.arr []

/-- llm_ranker.py:130, the reply-extraction expression:
`(text if text.strip().startswith("{") else (text.split("```json")[-1].split("```")[0] if "```" in text else text)).strip()`. -/
def extractJsonPart (text : Str) : Str :=
  trimStr (
    if ['\x7b'].isPrefixOf (trimStr text) then text
    else if strContains text "```".data then
      (splitOnSep "```".data ((splitOnSep "```json".data text).getLastD [])).headD []
    else text)

/-- llm_ranker.py:133-137: for each of the four fixed categories, take the
parsed array (missing/falsy values become `[]`), coerce each element with
`str`, and truncate to `top_k`; a non-object reply or a non-iterable truthy
value raises (`none`), which the surrounding `except` turns into "no
result". -/
def normalizeIds (data : Json) (topK : Nat) : Option (List (Str × List Str)) :=
  match data with
  | Json.obj fs =>
    (pyIter (pyOrList (objGet fs "top".data))).bind fun a =>
    (pyIter (pyOrList (objGet fs "pants".data))).bind fun b =>
    (pyIter (pyOrList (objGet fs "shoes".data))).bind fun c =>
    (pyIter (pyOrList (objGet fs "accessories".data))).map fun d =>
      [("top".data, (a.map pyStr).take topK), ("pants".data, (b.map pyStr).take topK),
        ("shoes".data, (c.map pyStr).take topK), ("accessories".data, (d.map pyStr).take topK)]
  | _ => none

/-- `LLMRanker.rerank` (llm_ranker.py:44-140), with the external call and
`json.loads` as oracles: `None` when the ranker is unconfigured, when the
call raises, when the reply fails to parse, or when normalisation raises. -/
def rerank (availableB : Bool) (callOutcome : Except Str Str)
    (loads : Str → Option Json) (topK : Nat) : Option (List (Str × List Str)) :=
  if !availableB then none
  else
    match callOutcome with
    | Except.error _ => none
    | Except.ok text =>
      match loads (extractJsonPart text) with
      | none => none
      | some data => normalizeIds data topK

/-- The orchestrator's dispatch on the rerank result (recommend.py:104-126):
a missing result falls back to the first `max_k` candidates in score order;
a present result is reconciled per category with `ids.get(cat, [])`. -/
def applyRerankResult (candidateRecs : List (Str × List Product)) (maxK : Nat)
    (ids : Option (List (Str × List Str))) : List (Str × List Product) :=
  match ids with
  | none => candidateRecs.map (fun cp => (cp.1, cp.2.take maxK))
  | some m => candidateRecs.map (fun cp =>
      (cp.1, reconcile maxK cp.2 (((m.find? (fun e => e.1 == cp.1)).map Prod.snd).getD [])))

/-- Spec-side model of the claim's wording "extracting the first balanced
`{...}` span": scan from the first opening brace, counting depth. -/
def balancedSpanAux : Str → Nat → Str → Option Str
  | [], _, _ => none
  | c :: rest, depth, acc =>
    if c = '\x7b' then balancedSpanAux rest (depth + 1) (c :: acc)
    else if c = '\x7d' then
      match depth with
      | 0 => none
      | 1 => some (c :: acc).reverse
      | d + 2 => balancedSpanAux rest (d + 1) (c :: acc)
    else balancedSpanAux rest depth (c :: acc)

/-- The first balanced `{...}` span of a text, per the spec's wording. -/
def firstBalancedSpan : Str → Option Str
  | [] => none
  | c :: rest =>
    if c = '\x7b' then balancedSpanAux rest 1 [c]
    else firstBalancedSpan rest

/-- A model reply wrapped in plain (untagged) code fences, containing a
balanced JSON object. -/
def fenceReplyC9 : Str := "```\n\x7b\"top\": [\"1\"]\x7d\n```".data

/-- Concrete parsed object for the id-normalisation witness. -/
def fsW9 : List (Str × Json) := [("top".data, Json.arr [Json.str "9".data, Json.str "7".data])]

/-- The normalisation output on `fsW9` with `top_k = 1`. -/
def outW9 : List (Str × List Str) :=
  [("top".data, ["9".data]), ("pants".data, []), ("shoes".data, []), ("accessories".data, [])]

/-! ## Heap-instrumented catalog service (for the frame claim)

Python dicts live at heap addresses (indices into `Svc.heap`); the catalog is
the list of addresses `CatalogService._catalog` holds; `copy = dict(product)`
allocates a fresh address; `p.pop("score", None)` writes through an address.
A read operation leaves every previously allocated cell intact exactly when
the old heap is a prefix of the new one. -/

structure Svc where
  heap : List Product
  catalog : List Nat

/-- Dereference default (addresses produced by the service are always in
range; the default only totalises the read). -/
def dfltProduct : Product :=
  { id := [], title := [], tags := [], category := [], price := 0 }

/-- Dereference a heap address. -/
def readH (heap : List Product) (a : Nat) : Product := heap.getD a dfltProduct

/-- The search loop of catalog.py:95-102 over the catalog addresses: each
eligible product is *copied* to a freshly allocated address carrying the
`"score"` key; the stored product is only read. -/
def allocCopies (normalized cats : List Str) (thr : Rat) :
    List Nat → List Product → List (Nat × Nat) × List Product
  | [], heap => ([], heap)
  | a :: rest, heap =>
    if (readH heap a).category ∈ cats then
      if halfLt thr (scoreProduct (readH heap a) normalized) = true then
        ((scoreProduct (readH heap a) normalized, heap.length) ::
            (allocCopies normalized cats thr rest
              (heap ++ [{ readH heap a with
                score := some (scoreProduct (readH heap a) normalized) }])).1,
          (allocCopies normalized cats thr rest
            (heap ++ [{ readH heap a with
              score := some (scoreProduct (readH heap a) normalized) }])).2)
      else allocCopies normalized cats thr rest heap
    else allocCopies normalized cats thr rest heap

/-- `CatalogService.search` at the heap level: returns the sorted, truncated
result *addresses* and the grown heap; the catalog address list is
untouched. -/
def searchH (st : Svc) (keywords cats : List Str) (maxResults : Nat) (thr : Rat) :
    List Nat × Svc :=
  (((sortDesc Prod.fst
        (allocCopies (normalizeKeywords keywords) cats thr st.catalog st.heap).1).take
      maxResults).map Prod.snd,
    { heap := (allocCopies (normalizeKeywords keywords) cats thr st.catalog st.heap).2
      catalog := st.catalog })

/-- catalog.py:128-129 at the heap level: `p.pop("score", None)` writes the
dict at each result address. -/
def popScores : List Product → List Nat → List Product
  | heap, [] => heap
  | heap, a :: rest => popScores (heap.set a { readH heap a with score := none }) rest

/-- `CatalogService.get_all` (catalog.py:50-51): `list(self._catalog)` copies
the address list and touches nothing. -/
def getAllH (st : Svc) : List Nat × Svc := (st.catalog, st)

/-- The price filter of catalog.py:121 applied to result addresses. -/
def pyPriceFilterAddr (minPrice maxPrice : Option Int) (heap : List Product)
    (addrs : List Nat) : List Nat :=
  if minPrice.isSome || maxPrice.isSome then
    addrs.filter (fun a => priceInRange minPrice maxPrice (readH heap a))
  else addrs

/-- The excluded-tag filter of catalog.py:122-124 applied to result
addresses. -/
def pyTagFilterAddr (excludeTags : Option (List Str)) (heap : List Product)
    (addrs : List Nat) : List Nat :=
  match excludeTags with
  | some ex => if ex.isEmpty then addrs
    else addrs.filter (fun a => !excludedBy ex (readH heap a))
  | none => addrs

/-- One category body of `find_similar` (catalog.py:117-126): search, filter,
truncate — the surviving result addresses. -/
def catStepAddrs (kws : List Str) (maxPerCat : Nat) (minPrice maxPrice : Option Int)
    (excludeTags : Option (List Str)) (st : Svc) (cat : Str) : List Nat :=
  (pyTagFilterAddr excludeTags (searchH st kws [cat] (maxPerCat * 3) 0).2.heap
    (pyPriceFilterAddr minPrice maxPrice (searchH st kws [cat] (maxPerCat * 3) 0).2.heap
      (searchH st kws [cat] (maxPerCat * 3) 0).1)).take maxPerCat

/-- The state after one category of `find_similar`: the heap grown by the
search's copies, with scores popped from the surviving copies when
`include_score` is false (catalog.py:127-129). -/
def catStepState (kws : List Str) (maxPerCat : Nat) (includeScore : Bool)
    (minPrice maxPrice : Option Int) (excludeTags : Option (List Str))
    (st : Svc) (cat : Str) : Svc :=
  if includeScore then (searchH st kws [cat] (maxPerCat * 3) 0).2
  else
    { heap := popScores (searchH st kws [cat] (maxPerCat * 3) 0).2.heap
        (catStepAddrs kws maxPerCat minPrice maxPrice excludeTags st cat)
      catalog := (searchH st kws [cat] (maxPerCat * 3) 0).2.catalog }

/-- `find_similar`'s category loop at the heap level. -/
def findSimilarHAux (kws : List Str) (maxPerCat : Nat) (includeScore : Bool)
    (minPrice maxPrice : Option Int) (excludeTags : Option (List Str)) :
    List Str → Svc → List (Str × List Nat) × Svc
  | [], st => ([], st)
  | cat :: cats, st =>
    ((cat, catStepAddrs kws maxPerCat minPrice maxPrice excludeTags st cat) ::
        (findSimilarHAux kws maxPerCat includeScore minPrice maxPrice excludeTags cats
          (catStepState kws maxPerCat includeScore minPrice maxPrice excludeTags st cat)).1,
      (findSimilarHAux kws maxPerCat includeScore minPrice maxPrice excludeTags cats
        (catStepState kws maxPerCat includeScore minPrice maxPrice excludeTags st cat)).2)

/-- `CatalogService.find_similar` at the heap level, over the configured
categories. -/
def findSimilarH (st : Svc) (a : Analysis) (maxPerCat : Nat) (includeScore : Bool)
    (minPrice maxPrice : Option Int) (excludeTags : Option (List Str)) :
    List (Str × List Nat) × Svc :=
  findSimilarHAux (analysisKeywords a) maxPerCat includeScore minPrice maxPrice excludeTags
    defaultCategories st

/-- The aggregate returned by `CatalogService.stats` (catalog.py:53-75). -/
structure CatalogStats where
  totalProducts : Nat
  categoryCounts : List (Str × Nat)
  priceMin : Int
  priceMax : Int
  priceAverage : Int

/-- catalog.py:61: `cats[c] = cats.get(c, 0) + 1` on an insertion-ordered
dict, as an association list. -/
def bumpCount (m : List (Str × Nat)) (c : Str) : List (Str × Nat) :=
  if m.any (fun e => e.1 == c) then
    m.map (fun e => if e.1 == c then (e.1, e.2 + 1) else e)
  else m ++ [(c, 1)]

/-- Python's `round(x, 0)`: round half to even. -/
def bankersRound (q : Rat) : Int :=
  if q - ⌊q⌋ < 1 / 2 then ⌊q⌋
  else if (1 : Rat) / 2 < q - ⌊q⌋ then ⌊q⌋ + 1
  else if ⌊q⌋ % 2 = 0 then ⌊q⌋ else ⌊q⌋ + 1

/-- `CatalogService.stats` (catalog.py:53-75): total count, per-category
counts, and the price range with the infinity-seeded minimum (`0` on an empty
catalog) and the banker's-rounded average.  Integer prices below `2^53` make
the source's float arithmetic exact. -/
def statsOf (products : List Product) : CatalogStats :=
  { totalProducts := products.length
    categoryCounts := products.foldl (fun m p => bumpCount m p.category) []
    priceMin := (products.foldl (fun o p => some (match o with
      | none => p.price
      | some m => min m p.price)) none).getD 0
    priceMax := products.foldl (fun m p => max m p.price) 0
    priceAverage := if 0 < products.length then
        bankersRound ((products.foldl (fun s p => s + (p.price : Rat)) 0) /
          (products.length : Rat))
      else 0 }

/-- `CatalogService.stats` at the heap level: a pure read. -/
def statsH (st : Svc) : CatalogStats × Svc :=
  (statsOf (st.catalog.map (readH st.heap)), st)

/-! ## Properties of the stable sort -/

theorem sortDesc_eq_go (key : α → Nat) (l : List α) :
    sortDesc key l = sortDescGo key l [] := by
  suffices h : ∀ l acc, List.foldl (fun acc x => insertDesc key x acc) acc l
      = sortDescGo key l acc by
    exact h l []
  intro l
  induction l with
  | nil => intro acc; rfl
  | cons x xs ih => intro acc; simpa [sortDescGo] using ih (insertDesc key x acc)

theorem mem_insertDesc {key : α → Nat} {x a : α} {l : List α} :
    a ∈ insertDesc key x l ↔ a = x ∨ a ∈ l := by
  induction l with
  | nil => simp [insertDesc]
  | cons y ys ih =>
    by_cases h : key y < key x
    · simp [insertDesc, h]
    · simp only [insertDesc, if_neg h, List.mem_cons, ih]
      tauto

theorem sublist_insertDesc (key : α → Nat) (x : α) (l : List α) :
    l.Sublist (insertDesc key x l) := by
  induction l with
  | nil => simp
  | cons y ys ih =>
    by_cases h : key y < key x
    · simp only [insertDesc, if_pos h]
      exact (List.Sublist.refl (y :: ys)).cons x
    · simpa [insertDesc, h] using ih.cons₂ y

theorem pairwise_insertDesc {key : α → Nat} {x : α} {l : List α}
    (h : l.Pairwise (fun a b => key b ≤ key a)) :
    (insertDesc key x l).Pairwise (fun a b => key b ≤ key a) := by
  induction l with
  | nil => simp [insertDesc]
  | cons y ys ih =>
    rcases List.pairwise_cons.mp h with ⟨hy, htl⟩
    by_cases hk : key y < key x
    · rw [show insertDesc key x (y :: ys) = x :: y :: ys by simp [insertDesc, hk]]
      refine List.pairwise_cons.mpr ⟨?_, h⟩
      intro b hb
      rcases List.mem_cons.mp hb with rfl | hb
      · exact le_of_lt hk
      · exact le_trans (hy b hb) (le_of_lt hk)
    · rw [show insertDesc key x (y :: ys) = y :: insertDesc key x ys by simp [insertDesc, hk]]
      refine List.pairwise_cons.mpr ⟨?_, ih htl⟩
      intro b hb
      rcases mem_insertDesc.mp hb with rfl | hb
      · exact le_of_not_lt hk
      · exact hy b hb

/-- Inserting an element of key `≤ key x` after an already-placed `x` keeps `x`
first: the inserted element lands strictly after every element of
greater-or-equal key. -/
theorem insertDesc_after {key : α → Nat} {x y : α} {l : List α}
    (hs : l.Pairwise (fun a b => key b ≤ key a)) (hx : x ∈ l) (hle : key y ≤ key x) :
    [x, y].Sublist (insertDesc key y l) := by
  induction l with
  | nil => cases hx
  | cons z zs ih =>
    rcases List.pairwise_cons.mp hs with ⟨hz, htl⟩
    by_cases hk : key z < key y
    · exfalso
      rcases List.mem_cons.mp hx with rfl | hx
      · exact absurd hk (not_lt.mpr hle)
      · exact absurd hk (not_lt.mpr (le_trans hle (hz x hx)))
    · rw [show insertDesc key y (z :: zs) = z :: insertDesc key y zs by
        simp [insertDesc, hk]]
      rcases List.mem_cons.mp hx with rfl | hx
      · exact (List.singleton_sublist.mpr (mem_insertDesc.mpr (Or.inl rfl))).cons₂ _
      · exact (ih htl hx).cons z

theorem mem_sortDesc {key : α → Nat} {a : α} {l : List α} :
    a ∈ sortDesc key l ↔ a ∈ l := by
  rw [sortDesc_eq_go]
  suffices h : ∀ l acc, a ∈ sortDescGo key l acc ↔ a ∈ acc ∨ a ∈ l by
    simpa using h l []
  intro l
  induction l with
  | nil => intro acc; simp [sortDescGo]
  | cons x xs ih =>
    intro acc
    rw [sortDescGo, ih, mem_insertDesc]
    simp only [List.mem_cons]
    tauto

theorem sortDesc_sorted (key : α → Nat) (l : List α) :
    (sortDesc key l).Pairwise (fun a b => key b ≤ key a) := by
  rw [sortDesc_eq_go]
  suffices h : ∀ l acc, acc.Pairwise (fun a b => key b ≤ key a) →
      (sortDescGo key l acc).Pairwise (fun a b => key b ≤ key a) by
    exact h l [] (by simp)
  intro l
  induction l with
  | nil => intro acc h; exact h
  | cons x xs ih => intro acc h; exact ih _ (pairwise_insertDesc h)

/-- Stability of `sortDesc`: any two elements already in descending key order
in the input (in particular, equal-key elements in input order) appear in the
same relative order in the output — the behaviour of Python's stable
`sort(..., reverse=True)`. -/
theorem sortDesc_stable {key : α → Nat} {x y : α} {l : List α}
    (hsub : [x, y].Sublist l) (hle : key y ≤ key x) :
    [x, y].Sublist (sortDesc key l) := by
  rw [sortDesc_eq_go]
  suffices h : ∀ l acc, acc.Pairwise (fun a b => key b ≤ key a) →
      ([x, y].Sublist acc ∨ (x ∈ acc ∧ y ∈ l) ∨ [x, y].Sublist l) →
      [x, y].Sublist (sortDescGo key l acc) by
    exact h l [] (by simp) (Or.inr (Or.inr hsub))
  intro l
  induction l with
  | nil =>
    intro acc hacc hcase
    rcases hcase with h | ⟨-, hy⟩ | h
    · exact h
    · cases hy
    · simp at h
  | cons z zs ih =>
    intro acc hacc hcase
    rw [sortDescGo]
    apply ih _ (pairwise_insertDesc hacc)
    rcases hcase with h | ⟨hx, hy⟩ | h
    · exact Or.inl (h.trans (sublist_insertDesc key z acc))
    · rcases List.mem_cons.mp hy with rfl | hy
      · exact Or.inl (insertDesc_after hacc hx hle)
      · exact Or.inr (Or.inl ⟨mem_insertDesc.mpr (Or.inr hx), hy⟩)
    · cases h with
      | cons _ h => exact Or.inr (Or.inr h)
      | cons₂ _ h =>
        exact Or.inr (Or.inl ⟨mem_insertDesc.mpr (Or.inl rfl), List.singleton_sublist.mp h⟩)

/-! ## The threshold comparison and the scoring sum -/

/-- `halfLt thr s2` decides the exact float comparison `s2/2 > thr`. -/
theorem halfLt_eq_true_iff (thr : Rat) (s2 : Nat) :
    halfLt thr s2 = true ↔ thr < (s2 : Rat) / 2 := by
  have hden : (0 : Rat) < (thr.den : Rat) := by exact_mod_cast thr.pos
  have hnum : (thr.num : Rat) = thr * (thr.den : Rat) :=
    (div_eq_iff (ne_of_gt hden)).mp (Rat.num_div_den thr)
  have key : (thr.num * 2 < (s2 : Int) * (thr.den : Int)) ↔ thr * 2 < (s2 : Rat) := by
    rw [← mul_lt_mul_right hden]
    have h2 : thr * 2 * (thr.den : Rat) = (thr.num : Rat) * 2 := by rw [hnum]; ring
    rw [h2]
    constructor
    · intro h; exact_mod_cast h
    · intro h; exact_mod_cast h
  rw [halfLt, decide_eq_true_iff, key, lt_div_iff₀ (by norm_num : (0 : Rat) < 2)]

/-- The scoring fold accumulates exactly the per-keyword half-unit
contributions. -/
theorem scoreProduct_eq_sum (p : Product) (keywords : List Str) :
    scoreProduct p keywords = (keywords.map (keywordContribution2 p)).sum := by
  suffices aux : ∀ (l : List Str) (a : Nat),
      l.foldl (fun score kw =>
        if strContains (itemText p) (lowerStr kw) then score + 2
        else if (splitWs (lowerStr kw)).any
            (fun tok => !tok.isEmpty && strContains (itemText p) tok) then score + 1
        else score) a = a + (l.map (keywordContribution2 p)).sum by
    simpa [scoreProduct] using aux keywords 0
  intro l
  induction l with
  | nil => intro a; simp
  | cons kw l ih =>
    intro a
    rw [List.foldl_cons, ih, List.map_cons, List.sum_cons]
    have hstep : (if strContains (itemText p) (lowerStr kw) then a + 2
        else if (splitWs (lowerStr kw)).any
            (fun tok => !tok.isEmpty && strContains (itemText p) tok) then a + 1
        else a) = a + keywordContribution2 p kw := by
      by_cases h1 : strContains (itemText p) (lowerStr kw)
      · simp [keywordContribution2, h1]
      · by_cases h2 : (splitWs (lowerStr kw)).any
            (fun tok => !tok.isEmpty && strContains (itemText p) tok)
        · simp [keywordContribution2, h1, h2]
        · simp [keywordContribution2, h1, h2]
    rw [hstep]
    omega

/-- The half-unit contribution is twice the spec's rational contribution. -/
theorem contribution2_cast (p : Product) (kw : Str) :
    (keywordContribution2 p kw : Rat) = 2 * keywordContribution p kw := by
  by_cases h1 : strContains (itemText p) (lowerStr kw)
  · simp [keywordContribution, keywordContribution2, h1]
  · by_cases h2 : (splitWs (lowerStr kw)).any
        (fun tok => !tok.isEmpty && strContains (itemText p) tok)
    · simp [keywordContribution, keywordContribution2, h1, h2]
    · simp [keywordContribution, keywordContribution2, h1, h2]

/-! ## Inversion of the search pipeline -/

theorem mem_eligiblePairs {catalog : List Product} {norm cats : List Str} {thr : Rat}
    {pr : Nat × Product} :
    pr ∈ eligiblePairs catalog norm cats thr ↔
      ∃ q ∈ catalog, q.category ∈ cats ∧ halfLt thr (scoreProduct q norm) = true ∧
        pr = (scoreProduct q norm, { q with score := some (scoreProduct q norm) }) := by
  rw [eligiblePairs, List.mem_filterMap]
  constructor
  · rintro ⟨q, hq, hf⟩
    by_cases hc : q.category ∈ cats
    · by_cases hs : halfLt thr (scoreProduct q norm) = true
      · rw [if_pos hc, if_pos hs] at hf
        exact ⟨q, hq, hc, hs, (Option.some_injective _ hf).symm⟩
      · rw [if_pos hc, if_neg hs] at hf; cases hf
    · rw [if_neg hc] at hf; cases hf
  · rintro ⟨q, hq, hc, hs, rfl⟩
    exact ⟨q, hq, by rw [if_pos hc, if_pos hs]⟩

/-- Every eligible pair carries its own score in the copy's `"score"` key. -/
theorem eligible_snd_score {catalog : List Product} {norm cats : List Str} {thr : Rat} :
    ∀ pr ∈ eligiblePairs catalog norm cats thr, pr.2.score = some pr.1 := by
  intro pr h
  rcases mem_eligiblePairs.mp h with ⟨q, -, -, -, rfl⟩
  rfl

theorem half_le_half {a b : Nat} (h : a ≤ b) : (a : Rat) / 2 ≤ (b : Rat) / 2 := by
  have h2 : (a : Rat) ≤ (b : Rat) := by exact_mod_cast h
  gcongr

/-! ## Properties of the reconciliation algorithm -/

theorem lookupId_mem {cands : List Product} {i : Str} {p : Product}
    (h : lookupId cands i = some p) : p ∈ cands :=
  List.mem_reverse.mp (List.mem_of_find?_eq_some h)

theorem lookupId_id {cands : List Product} {i : Str} {p : Product}
    (h : lookupId cands i = some p) : p.id = i := by
  have h2 := List.find?_some h
  exact eq_of_beq h2

/-- The code's rerank phase (a fold with appends) is the spec's walk. -/
theorem rerankPhase_eq (cands : List Product) (ids : List Str) :
    rerankPhase cands ids = specRerankPhase cands ids := by
  suffices aux : ∀ (ids : List Str) (acc : List Product),
      ids.foldl (fun acc i =>
        match lookupId cands i with
        | some p => acc ++ [p]
        | none => acc) acc = acc ++ ids.filterMap (lookupId cands) by
    simpa [rerankPhase, specRerankPhase] using aux ids []
  intro ids
  induction ids with
  | nil => intro acc; simp
  | cons i ids ih =>
    intro acc
    rw [List.foldl_cons]
    cases h : lookupId cands i with
    | none => simp [h, ih]
    | some p => simp [h, ih]

theorem specFill_of_ge {maxK : Nat} {acc : List Product} (h : maxK ≤ acc.length)
    (cands : List Product) : specFill maxK cands acc = acc := by
  cases cands with
  | nil => rfl
  | cons p rest => rw [specFill, if_neg (by omega)]

/-- The code's fill loop (append, then break once full) computes the spec's
while-style fill whenever it is entered (output still short of `max_k`). -/
theorem fillLoop_eq_specFill {maxK : Nat} :
    ∀ (cands acc : List Product), acc.length < maxK →
      fillLoop maxK cands acc = specFill maxK cands acc := by
  intro cands
  induction cands with
  | nil => intro acc _; rfl
  | cons p rest ih =>
    intro acc h
    rw [fillLoop, specFill, if_pos h]
    by_cases hp : p ∈ acc
    · rw [if_pos hp, if_pos hp, if_neg (by omega), ih acc h]
    · rw [if_neg hp, if_neg hp]
      by_cases hK : maxK ≤ (acc ++ [p]).length
      · rw [if_pos hK, specFill_of_ge hK]
      · rw [if_neg hK, ih _ (by omega)]

/-- recommend.py:108-122 computes exactly the spec's two-phase algorithm. -/
theorem reconcile_eq_spec (maxK : Nat) (cands : List Product) (ids : List Str) :
    reconcile maxK cands ids = specFill maxK cands (specRerankPhase cands ids) := by
  rw [reconcile, rerankPhase_eq]
  by_cases h : (specRerankPhase cands ids).length < maxK
  · rw [if_pos h, fillLoop_eq_specFill _ _ h]
  · rw [if_neg h, specFill_of_ge (by omega)]

theorem specRerankPhase_subset {cands : List Product} {ids : List Str} :
    ∀ p ∈ specRerankPhase cands ids, p ∈ cands := by
  intro p hp
  rcases List.mem_filterMap.mp hp with ⟨i, -, h⟩
  exact lookupId_mem h

theorem specRerankPhase_map_id (cands : List Product) (ids : List Str) :
    (specRerankPhase cands ids).map Product.id
      = ids.filter (fun i => (lookupId cands i).isSome) := by
  induction ids with
  | nil => rfl
  | cons i ids ih =>
    rw [specRerankPhase, List.filterMap_cons]
    cases h : lookupId cands i with
    | none => simpa [List.filter_cons, h] using ih
    | some p =>
      rw [List.map_cons, lookupId_id h]
      simpa [List.filter_cons, h] using ih

theorem specRerankPhase_nodup {cands : List Product} {ids : List Str} (h : ids.Nodup) :
    ((specRerankPhase cands ids).map Product.id).Nodup := by
  rw [specRerankPhase_map_id]
  exact h.filter _

theorem specRerankPhase_length (cands : List Product) (ids : List Str) :
    (specRerankPhase cands ids).length ≤ ids.length :=
  List.length_filterMap_le _ _

theorem specFill_subset {maxK : Nat} :
    ∀ (cands acc : List Product), ∀ p ∈ specFill maxK cands acc, p ∈ acc ∨ p ∈ cands := by
  intro cands
  induction cands with
  | nil => intro acc p hp; exact Or.inl hp
  | cons c rest ih =>
    intro acc p hp
    rw [specFill] at hp
    by_cases h : acc.length < maxK
    · rw [if_pos h] at hp
      by_cases hc : c ∈ acc
      · rw [if_pos hc] at hp
        rcases ih acc p hp with h' | h'
        · exact Or.inl h'
        · exact Or.inr (List.mem_cons_of_mem _ h')
      · rw [if_neg hc] at hp
        rcases ih _ p hp with h' | h'
        · rcases List.mem_append.mp h' with h'' | h''
          · exact Or.inl h''
          · exact Or.inr (List.mem_cons.mpr (Or.inl (List.mem_singleton.mp h'')))
        · exact Or.inr (List.mem_cons_of_mem _ h')
    · rw [if_neg h] at hp
      exact Or.inl hp

theorem specFill_length {maxK : Nat} :
    ∀ (cands acc : List Product), (specFill maxK cands acc).length ≤ max acc.length maxK := by
  intro cands
  induction cands with
  | nil => intro acc; exact le_max_left _ _
  | cons c rest ih =>
    intro acc
    rw [specFill]
    by_cases h : acc.length < maxK
    · rw [if_pos h]
      by_cases hc : c ∈ acc
      · rw [if_pos hc]; exact ih acc
      · rw [if_neg hc]
        have := ih (acc ++ [c])
        simp only [List.length_append, List.length_cons, List.length_nil] at this
        omega
    · rw [if_neg h]
      exact le_max_left _ _

/-- With pairwise-distinct candidate ids, the fill phase preserves
duplicate-freeness of the output ids. -/
theorem specFill_nodup {maxK : Nat} {cands : List Product}
    (hcn : (cands.map Product.id).Nodup) :
    ∀ (rem acc : List Product), (∀ p ∈ rem, p ∈ cands) → (∀ p ∈ acc, p ∈ cands) →
      (acc.map Product.id).Nodup →
      ((specFill maxK rem acc).map Product.id).Nodup := by
  intro rem
  induction rem with
  | nil => intro acc _ _ hn; exact hn
  | cons c rest ih =>
    intro acc hsub hacc hn
    rw [specFill]
    by_cases h : acc.length < maxK
    · rw [if_pos h]
      by_cases hc : c ∈ acc
      · rw [if_pos hc]
        exact ih acc (fun p hp => hsub p (List.mem_cons_of_mem _ hp)) hacc hn
      · rw [if_neg hc]
        have hcmem : c ∈ cands := hsub c (List.mem_cons_self _ _)
        have hnotid : c.id ∉ acc.map Product.id := by
          intro hid
          rcases List.mem_map.mp hid with ⟨q, hq, hqid⟩
          have : q = c := List.inj_on_of_nodup_map hcn (hacc q hq) hcmem hqid
          exact hc (this ▸ hq)
        refine ih (acc ++ [c]) (fun p hp => hsub p (List.mem_cons_of_mem _ hp)) ?_ ?_
        · intro p hp
          rcases List.mem_append.mp hp with h' | h'
          · exact hacc p h'
          · exact (List.mem_singleton.mp h') ▸ hcmem
        · rw [List.map_append]
          exact hn.append (by simp) (by
            intro x hx hx'
            simp only [List.map_cons, List.map_nil, List.mem_singleton] at hx'
            exact hnotid (hx' ▸ hx))
    · rw [if_neg h]
      exact hn

/-! ## Properties of the find_similar filters -/

theorem pyTagFilter_subset (excludeTags : Option (List Str)) (ps : List Product) :
    ∀ p ∈ pyTagFilter excludeTags ps, p ∈ ps := by
  intro p hp
  rcases excludeTags with - | ex
  · exact hp
  · rw [pyTagFilter] at hp
    by_cases he : ex.isEmpty
    · rw [if_pos he] at hp; exact hp
    · rw [if_neg he] at hp; exact List.mem_of_mem_filter hp

theorem mem_pyPriceFilter {minPrice maxPrice : Option Int} {ps : List Product}
    (hact : minPrice.isSome ∨ maxPrice.isSome) :
    ∀ p ∈ pyPriceFilter minPrice maxPrice ps, priceInRange minPrice maxPrice p = true := by
  intro p hp
  have hb : (minPrice.isSome || maxPrice.isSome) = true := by
    rcases hact with h | h <;> simp [h]
  rw [pyPriceFilter, if_pos hb] at hp
  exact List.of_mem_filter hp

/-! ## Properties of the retry loop -/

/-- A credential-invalid failure stops the attempt loop at once: one call
event, no sleep, no further attempts for this key. -/
theorem tryKeyAux_invalid {K α : Type} {f : K → Nat → Except Str α} {R : Nat} {k : K}
    {e : Str} {a : Nat} (rest : List Nat)
    (hf : f k a = Except.error e) (hinv : isInvalidKeyMsg e = true) :
    tryKeyAux f R k (a :: rest) = ([GenEvent.call k a], none, some e) := by
  rw [tryKeyAux, hf]
  simp [hinv]

/-- A credential-invalid failure on the first attempt of the head key makes
the whole run continue — immediately — with the remaining keys, carrying the
new error. -/
theorem runKeysAux_invalid_head {K α : Type} {f : K → Nat → Except Str α} {R : Nat}
    {k : K} {e : Str} (ks : List K) (lastErr : Option Str)
    (hR : 1 ≤ R) (hf : f k 1 = Except.error e) (hinv : isInvalidKeyMsg e = true) :
    runKeysAux f R (k :: ks) lastErr =
      (GenEvent.call k 1 :: (runKeysAux f R ks (some e)).1, (runKeysAux f R ks (some e)).2) := by
  have hrange : List.range' 1 R = 1 :: List.range' 2 (R - 1) := by
    cases R with
    | zero => omega
    | succ n => rw [List.range'_succ]; norm_num
  rw [runKeysAux, hrange, tryKeyAux_invalid _ hf hinv]
  simp

theorem callsOf_cons_call {K : Type} (k : K) (a : Nat) (evs : List (GenEvent K)) :
    callsOf (GenEvent.call k a :: evs) = (k, a) :: callsOf evs := rfl

theorem callsOf_append {K : Type} (l l' : List (GenEvent K)) :
    callsOf (l ++ l') = callsOf l ++ callsOf l' :=
  List.filterMap_append l l' _

theorem callsOf_sleeps {K : Type} (c : Prop) [Decidable c] (n : Nat) :
    callsOf (K := K) (if c then [GenEvent.sleep n] else []) = [] := by
  by_cases h : c <;> simp [h, callsOf]

theorem getLast?_cons_of_ne_nil {β : Type _} {l : List β} (h : l ≠ []) (x : β) :
    (x :: l).getLast? = l.getLast? := by
  cases l with
  | nil => exact absurd rfl h
  | cons y ys => exact List.getLast?_cons_cons

/-- When every attempt on a key fails, the key's loop returns no value; its
recorded error is the one of its chronologically last call event. -/
theorem tryKeyAux_allfail {K α : Type} {f : K → Nat → Except Str α} {R : Nat} {k : K}
    {err : K → Nat → Str} (hf : ∀ a, f k a = Except.error (err k a)) :
    ∀ (attempts : List Nat), attempts ≠ [] →
      ∃ a, callsOf (tryKeyAux f R k attempts).1 ≠ [] ∧
        (callsOf (tryKeyAux f R k attempts).1).getLast? = some (k, a) ∧
        (tryKeyAux f R k attempts).2.1 = none ∧
        (tryKeyAux f R k attempts).2.2 = some (err k a) := by
  intro attempts
  induction attempts with
  | nil => intro h; exact absurd rfl h
  | cons a rest ih =>
    intro _
    rw [tryKeyAux, hf a]
    dsimp only
    by_cases hinv : isInvalidKeyMsg (err k a) = true
    · rw [if_pos hinv]
      exact ⟨a, by simp [callsOf], by simp [callsOf], rfl, rfl⟩
    · rw [if_neg hinv]
      cases rest with
      | nil =>
        refine ⟨a, ?_, ?_, rfl, rfl⟩
        · simp [callsOf_cons_call]
        · rw [show tryKeyAux f R k [] = ([], none, none) from rfl]
          simp [callsOf_cons_call, callsOf_append, callsOf_sleeps]
      | cons b rest' =>
        obtain ⟨a2, hne, hlast, hnone, herr⟩ := ih (by simp)
        refine ⟨a2, ?_, ?_, hnone, ?_⟩
        · simp [callsOf_cons_call]
        · rw [callsOf_cons_call, callsOf_append, callsOf_sleeps, List.nil_append,
            getLast?_cons_of_ne_nil hne]
          exact hlast
        · rw [herr]
          rfl

/-- When every attempt on every key fails, the run raises the error of the
chronologically last call event. -/
theorem runKeysAux_allfail {K α : Type} {f : K → Nat → Except Str α}
    {err : K → Nat → Str} {R : Nat} (hR : 1 ≤ R)
    (hf : ∀ k a, f k a = Except.error (err k a)) :
    ∀ (keys : List K) (lastErr : Option Str), keys ≠ [] →
      ∃ k a, callsOf (runKeysAux f R keys lastErr).1 ≠ [] ∧
        (callsOf (runKeysAux f R keys lastErr).1).getLast? = some (k, a) ∧
        (runKeysAux f R keys lastErr).2 = Except.error (some (err k a)) := by
  intro keys
  induction keys with
  | nil => intro lastErr h; exact absurd rfl h
  | cons k ks ih =>
    intro lastErr _
    have hrange_ne : List.range' 1 R ≠ [] := by
      apply List.ne_nil_of_length_pos
      rw [List.length_range']
      omega
    obtain ⟨a, hne, hlast, hnone, herr⟩ := tryKeyAux_allfail (hf k) _ hrange_ne
    rcases htk : tryKeyAux f R k (List.range' 1 R) with ⟨evs, o1, o2⟩
    rw [htk] at hne hlast hnone herr
    simp only at hnone herr
    subst hnone herr
    rw [runKeysAux, htk]
    cases ks with
    | nil =>
      refine ⟨k, a, ?_, ?_, rfl⟩
      · simpa [runKeysAux, callsOf_append, callsOf] using hne
      · simpa [runKeysAux, callsOf_append, callsOf] using hlast
    | cons k2 ks2 =>
      obtain ⟨k3, a3, hne3, hlast3, herr3⟩ := ih (some (err k a)) (by simp)
      refine ⟨k3, a3, ?_, ?_, herr3⟩
      · simp only [callsOf_append]
        intro hcontra
        rcases List.append_eq_nil.mp hcontra with ⟨-, h2⟩
        exact hne3 h2
      · rw [callsOf_append, List.getLast?_append, hlast3]
        rfl

/-! ## Frame properties of the heap-level service -/

/-- The search loop only appends to the heap. -/
theorem allocCopies_heap (normalized cats : List Str) (thr : Rat) :
    ∀ (addrs : List Nat) (heap : List Product),
      ∃ ext, (allocCopies normalized cats thr addrs heap).2 = heap ++ ext := by
  intro addrs
  induction addrs with
  | nil => intro heap; exact ⟨[], by simp [allocCopies]⟩
  | cons a rest ih =>
    intro heap
    rw [allocCopies]
    by_cases h1 : (readH heap a).category ∈ cats
    · rw [if_pos h1]
      by_cases h2 : halfLt thr (scoreProduct (readH heap a) normalized) = true
      · rw [if_pos h2]
        obtain ⟨ext, hext⟩ := ih (heap ++ [{ readH heap a with
          score := some (scoreProduct (readH heap a) normalized) }])
        refine ⟨{ readH heap a with
          score := some (scoreProduct (readH heap a) normalized) } :: ext, ?_⟩
        rw [hext]
        simp
      · rw [if_neg h2]; exact ih heap
    · rw [if_neg h1]; exact ih heap

/-- Every address the search loop returns is freshly allocated (at or above
the initial heap size). -/
theorem allocCopies_addrs_ge (normalized cats : List Str) (thr : Rat) :
    ∀ (addrs : List Nat) (heap : List Product) (pr : Nat × Nat),
      pr ∈ (allocCopies normalized cats thr addrs heap).1 → heap.length ≤ pr.2 := by
  intro addrs
  induction addrs with
  | nil => intro heap pr h; simp [allocCopies] at h
  | cons a rest ih =>
    intro heap pr h
    rw [allocCopies] at h
    by_cases h1 : (readH heap a).category ∈ cats
    · rw [if_pos h1] at h
      by_cases h2 : halfLt thr (scoreProduct (readH heap a) normalized) = true
      · rw [if_pos h2] at h
        rcases List.mem_cons.mp h with rfl | h
        · exact le_refl _
        · have := ih _ pr h
          simp only [List.length_append, List.length_cons, List.length_nil] at this
          omega
      · rw [if_neg h2] at h; exact ih heap pr h
    · rw [if_neg h1] at h; exact ih heap pr h

theorem searchH_catalog (st : Svc) (keywords cats : List Str) (maxResults : Nat)
    (thr : Rat) :
    (searchH st keywords cats maxResults thr).2.catalog = st.catalog := rfl

theorem searchH_heap_frame (st : Svc) (keywords cats : List Str) (maxResults : Nat)
    (thr : Rat) :
    ∃ ext, (searchH st keywords cats maxResults thr).2.heap = st.heap ++ ext :=
  allocCopies_heap (normalizeKeywords keywords) cats thr st.catalog st.heap

theorem searchH_addrs_ge (st : Svc) (keywords cats : List Str) (maxResults : Nat)
    (thr : Rat) :
    ∀ a ∈ (searchH st keywords cats maxResults thr).1, st.heap.length ≤ a := by
  intro a ha
  rw [searchH] at ha
  rcases List.mem_map.mp ha with ⟨pr, hpr, rfl⟩
  have h1 : pr ∈ sortDesc Prod.fst
      (allocCopies (normalizeKeywords keywords) cats thr st.catalog st.heap).1 :=
    (List.take_sublist _ _).subset hpr
  exact allocCopies_addrs_ge _ _ _ _ _ pr (mem_sortDesc.mp h1)

theorem take_set_of_le {β : Type _} :
    ∀ (l : List β) (i n : Nat) (x : β), n ≤ i → (l.set i x).take n = l.take n := by
  intro l
  induction l with
  | nil => intro i n x _; simp
  | cons c rest ih =>
    intro i n x hni
    cases n with
    | zero => simp
    | succ m =>
      cases i with
      | zero => omega
      | succ j =>
        simp only [List.set_cons_succ, List.take_succ_cons]
        rw [ih j m x (by omega)]

/-- Popping scores at fresh addresses never touches the old heap prefix. -/
theorem popScores_take {n : Nat} :
    ∀ (addrs : List Nat) (heap : List Product), (∀ a ∈ addrs, n ≤ a) →
      (popScores heap addrs).take n = heap.take n := by
  intro addrs
  induction addrs with
  | nil => intro heap _; rfl
  | cons a rest ih =>
    intro heap h
    rw [popScores, ih _ (fun b hb => h b (List.mem_cons_of_mem _ hb)),
      take_set_of_le _ _ _ _ (h a (List.mem_cons_self _ _))]

theorem popScores_length :
    ∀ (addrs : List Nat) (heap : List Product),
      (popScores heap addrs).length = heap.length := by
  intro addrs
  induction addrs with
  | nil => intro heap; rfl
  | cons a rest ih =>
    intro heap
    rw [popScores, ih, List.length_set]

/-- The addresses surviving a category's filters are among the search's fresh
addresses. -/
theorem catStepAddrs_ge (kws : List Str) (maxPerCat : Nat) (minPrice maxPrice : Option Int)
    (excludeTags : Option (List Str)) (st : Svc) (cat : Str) :
    ∀ a ∈ catStepAddrs kws maxPerCat minPrice maxPrice excludeTags st cat,
      st.heap.length ≤ a := by
  intro a ha
  apply searchH_addrs_ge st kws [cat] (maxPerCat * 3) 0 a
  have h1 := (List.take_sublist maxPerCat _).subset ha
  have h2 : a ∈ pyPriceFilterAddr minPrice maxPrice
      (searchH st kws [cat] (maxPerCat * 3) 0).2.heap
      (searchH st kws [cat] (maxPerCat * 3) 0).1 := by
    rcases hext : excludeTags with - | ex
    · rw [hext, pyTagFilterAddr] at h1; exact h1
    · rw [hext, pyTagFilterAddr] at h1
      by_cases he : ex.isEmpty
      · rw [if_pos he] at h1; exact h1
      · rw [if_neg he] at h1; exact List.mem_of_mem_filter h1
  rw [pyPriceFilterAddr] at h2
  by_cases hact : (minPrice.isSome || maxPrice.isSome) = true
  · rw [if_pos hact] at h2; exact List.mem_of_mem_filter h2
  · rw [if_neg hact] at h2; exact h2

theorem catStepState_catalog (kws : List Str) (maxPerCat : Nat) (includeScore : Bool)
    (minPrice maxPrice : Option Int) (excludeTags : Option (List Str))
    (st : Svc) (cat : Str) :
    (catStepState kws maxPerCat includeScore minPrice maxPrice excludeTags st cat).catalog
      = st.catalog := by
  rw [catStepState]
  by_cases h : includeScore
  · rw [if_pos h]; rfl
  · rw [if_neg h]; rfl

theorem catStepState_heap_len (kws : List Str) (maxPerCat : Nat) (includeScore : Bool)
    (minPrice maxPrice : Option Int) (excludeTags : Option (List Str))
    (st : Svc) (cat : Str) :
    st.heap.length ≤
      (catStepState kws maxPerCat includeScore minPrice maxPrice excludeTags
        st cat).heap.length := by
  obtain ⟨ext, hext⟩ := searchH_heap_frame st kws [cat] (maxPerCat * 3) 0
  rw [catStepState]
  by_cases h : includeScore
  · rw [if_pos h, hext]; simp
  · rw [if_neg h]
    simp only [popScores_length, hext, List.length_append]
    omega

theorem catStepState_heap_take (kws : List Str) (maxPerCat : Nat) (includeScore : Bool)
    (minPrice maxPrice : Option Int) (excludeTags : Option (List Str))
    (st : Svc) (cat : Str) {n : Nat} (hn : n ≤ st.heap.length) :
    (catStepState kws maxPerCat includeScore minPrice maxPrice excludeTags
      st cat).heap.take n = st.heap.take n := by
  obtain ⟨ext, hext⟩ := searchH_heap_frame st kws [cat] (maxPerCat * 3) 0
  have hsearch : (searchH st kws [cat] (maxPerCat * 3) 0).2.heap.take n = st.heap.take n := by
    rw [hext, List.take_append_of_le_length hn]
  rw [catStepState]
  by_cases h : includeScore
  · rw [if_pos h]; exact hsearch
  · rw [if_neg h]
    have hge : ∀ a ∈ catStepAddrs kws maxPerCat minPrice maxPrice excludeTags st cat,
        n ≤ a := fun a ha => le_trans hn (catStepAddrs_ge _ _ _ _ _ _ _ a ha)
    dsimp only
    rw [popScores_take _ _ hge, hsearch]

/-- `find_similar`'s category loop preserves the catalog address list and the
initial heap prefix. -/
theorem findSimilarHAux_frame (kws : List Str) (maxPerCat : Nat) (includeScore : Bool)
    (minPrice maxPrice : Option Int) (excludeTags : Option (List Str)) :
    ∀ (cats : List Str) (st : Svc),
      (findSimilarHAux kws maxPerCat includeScore minPrice maxPrice excludeTags
        cats st).2.catalog = st.catalog ∧
      ∀ n ≤ st.heap.length,
        (findSimilarHAux kws maxPerCat includeScore minPrice maxPrice excludeTags
          cats st).2.heap.take n = st.heap.take n ∧
        n ≤ (findSimilarHAux kws maxPerCat includeScore minPrice maxPrice excludeTags
          cats st).2.heap.length := by
  intro cats
  induction cats with
  | nil => intro st; exact ⟨rfl, fun n hn => ⟨rfl, hn⟩⟩
  | cons cat cats ih =>
    intro st
    rw [findSimilarHAux]
    constructor
    · rw [(ih _).1, catStepState_catalog]
    · intro n hn
      have hlen : n ≤ (catStepState kws maxPerCat includeScore minPrice maxPrice excludeTags
          st cat).heap.length :=
        le_trans hn (catStepState_heap_len _ _ _ _ _ _ _ _)
      obtain ⟨htake, hlen2⟩ := (ih _).2 n hlen
      exact ⟨by rw [htake, catStepState_heap_take _ _ _ _ _ _ _ _ hn], hlen2⟩

/-! ## Claim theorems -/

/-- C1 (counterexample): as stated, the claim is false.  With candidates
`[A, B]` (distinct ids), reranker id list `["A", "B", "A"]` and
`maxPerCategory = 1`, the reconciliation of recommend.py:108-122 appends every
matched rerank id without truncating or deduplicating, so the output is
`[A, B, A]`: longer than `maxPerCategory` and with a duplicate id. -/
theorem reconcile_bounds_counterexample :
    ¬ ((reconcile 1 [prodA, prodB] ["A".data, "B".data, "A".data]).length ≤ 1 ∧
       ((reconcile 1 [prodA, prodB] ["A".data, "B".data, "A".data]).map
         Product.id).Nodup) := by
  decide

/-- C1 (amended): for every positive `maxPerCategory`, candidate set with
pairwise-distinct product ids, and reranker id list that is duplicate-free
and no longer than `maxPerCategory`, the reconciled list has length at most
`maxPerCategory`, contains no duplicate product identifiers, and draws every
member from the original candidate set. -/
theorem reconcile_bounds_amended :
    ∀ (maxK : Nat) (cands : List Product) (ids : List Str),
      0 < maxK → (cands.map Product.id).Nodup → ids.Nodup → ids.length ≤ maxK →
      (reconcile maxK cands ids).length ≤ maxK ∧
      ((reconcile maxK cands ids).map Product.id).Nodup ∧
      ∀ p ∈ reconcile maxK cands ids, p ∈ cands := by
  intro maxK cands ids hpos hcn hids hlen
  rw [reconcile_eq_spec]
  refine ⟨?_, ?_, ?_⟩
  · have h1 := @specFill_length maxK cands (specRerankPhase cands ids)
    have h2 := specRerankPhase_length cands ids
    omega
  · exact specFill_nodup hcn cands _ (fun p hp => hp) specRerankPhase_subset
      (specRerankPhase_nodup hids)
  · intro p hp
    rcases specFill_subset cands _ p hp with h | h
    · exact specRerankPhase_subset p h
    · exact h

/-- Witness for `reconcile_bounds_amended` at `maxK = 2`, candidates
`[A, B, C]`, rerank result `["B"]`. -/
theorem reconcile_bounds_amended_witness :
    (reconcile 2 [prodA, prodB, prodC] ["B".data]).length ≤ 2 ∧
    ((reconcile 2 [prodA, prodB, prodC] ["B".data]).map Product.id).Nodup ∧
    ∀ p ∈ reconcile 2 [prodA, prodB, prodC] ["B".data], p ∈ [prodA, prodB, prodC] :=
  reconcile_bounds_amended 2 [prodA, prodB, prodC] ["B".data]
    (by decide) (by decide) (by decide) (by decide)

/-- C2: the reconciliation of recommend.py:108-122 first appends, in rerank
order, the candidates whose ids appear in the rerank list (silently skipping
unknown ids), then — while the output is shorter than `maxPerCategory` —
fills with the remaining candidates in original score-sorted order, skipping
any candidate already included (`specFill` / `specRerankPhase` transcribe the
spec's wording); in particular, candidates `[A, B, C]` with rerank result
`["B"]` and `maxPerCategory = 2` reconcile to `[B, A]`. -/
theorem reconcile_algorithm_spec :
    (∀ (maxK : Nat) (cands : List Product) (ids : List Str),
      reconcile maxK cands ids = specFill maxK cands (specRerankPhase cands ids)) ∧
    reconcile 2 [prodA, prodB, prodC] ["B".data] = [prodB, prodA] :=
  ⟨reconcile_eq_spec, by decide⟩

/-- C3: `CatalogService.search` returns only items whose score strictly
exceeds the threshold (each result's `"score"` key holds such a score),
truncates to at most `maxResults`, orders results by score descending, and —
by stability of the sort — keeps any two eligible entries that already stand
in descending-or-equal score order (in particular ties) in catalog iteration
order; on the spec's two-product example with keywords `["casual"]` only
`"t1"` (score `1.0`) is returned. -/
theorem search_spec :
    (∀ (catalog : List Product) (keywords categories : List Str) (maxResults : Nat)
        (thr : Rat),
      ∀ p ∈ search catalog keywords categories maxResults thr,
        ∃ s2, p.score = some s2 ∧ thr < (s2 : Rat) / 2) ∧
    (∀ (catalog : List Product) (keywords categories : List Str) (maxResults : Nat)
        (thr : Rat),
      (search catalog keywords categories maxResults thr).length ≤ maxResults) ∧
    (∀ (catalog : List Product) (keywords categories : List Str) (maxResults : Nat)
        (thr : Rat),
      (search catalog keywords categories maxResults thr).Pairwise
        (fun p q => ((q.score.getD 0 : Nat) : Rat) / 2 ≤ ((p.score.getD 0 : Nat) : Rat) / 2)) ∧
    (∀ (catalog : List Product) (keywords categories : List Str) (thr : Rat)
        (x y : Nat × Product),
      [x, y].Sublist (eligiblePairs catalog (normalizeKeywords keywords) categories thr) →
      y.1 ≤ x.1 →
      [x, y].Sublist
        (sortDesc Prod.fst (eligiblePairs catalog (normalizeKeywords keywords)
          categories thr))) ∧
    search [teeProduct, sweaterProduct] ["casual".data] defaultCategories 10 0
      = [{ teeProduct with score := some 2 }] := by
  refine ⟨?_, ?_, ?_, ?_, ?_⟩
  · intro catalog keywords cats maxR thr p hp
    rw [search] at hp
    rcases List.mem_map.mp hp with ⟨pr, hpr, rfl⟩
    have h1 : pr ∈ sortDesc Prod.fst
        (eligiblePairs catalog (normalizeKeywords keywords) cats thr) :=
      (List.take_sublist _ _).subset hpr
    rcases mem_eligiblePairs.mp (mem_sortDesc.mp h1) with ⟨q, -, -, hs, rfl⟩
    exact ⟨scoreProduct q (normalizeKeywords keywords), rfl, (halfLt_eq_true_iff _ _).mp hs⟩
  · intro catalog keywords cats maxR thr
    simp only [search, List.length_map, List.length_take]
    omega
  · intro catalog keywords cats maxR thr
    rw [search, List.pairwise_map]
    have hsorted := (sortDesc_sorted Prod.fst
      (eligiblePairs catalog (normalizeKeywords keywords) cats thr)).sublist
      (List.take_sublist maxR _)
    refine hsorted.imp_of_mem ?_
    intro a b ha hb hle
    have hmema : a ∈ eligiblePairs catalog (normalizeKeywords keywords) cats thr :=
      mem_sortDesc.mp ((List.take_sublist _ _).subset ha)
    have hmemb : b ∈ eligiblePairs catalog (normalizeKeywords keywords) cats thr :=
      mem_sortDesc.mp ((List.take_sublist _ _).subset hb)
    rw [eligible_snd_score a hmema, eligible_snd_score b hmemb]
    exact half_le_half hle
  · intro catalog keywords cats thr x y hsub hle
    exact sortDesc_stable hsub hle
  · decide

/-- Witness for `search_spec`: the threshold clause at the example catalog,
and the stability clause at threshold `-1` (where both example products are
eligible, with scores `1.0` and `0`). -/
theorem search_spec_witness :
    (∃ s2, ({ teeProduct with score := some 2 } : Product).score = some s2 ∧
      (0 : Rat) < (s2 : Rat) / 2) ∧
    [((2 : Nat), { teeProduct with score := some 2 }),
        ((0 : Nat), { sweaterProduct with score := some 0 })].Sublist
      (sortDesc Prod.fst (eligiblePairs [teeProduct, sweaterProduct]
        (normalizeKeywords ["casual".data]) defaultCategories (-1))) :=
  ⟨search_spec.1 [teeProduct, sweaterProduct] ["casual".data] defaultCategories 10 0
      { teeProduct with score := some 2 } (by decide),
   search_spec.2.2.2.1 [teeProduct, sweaterProduct] ["casual".data] defaultCategories (-1)
      (2, { teeProduct with score := some 2 }) (0, { sweaterProduct with score := some 0 })
      (by decide) (by decide)⟩

/-- C4: `_score_product` equals the plain sum, over the keywords, of the
spec's per-keyword contribution — `1.0` when the lower-cased keyword is a
substring of the lower-cased `"<title> <joined tags>"` text, else `0.5` when
some whitespace token of it is, else `0` — with no normalisation by keyword
count or text length.  (`scoreProduct` counts half-units, whence the `/ 2`.) -/
theorem score_is_keyword_sum :
    ∀ (p : Product) (keywords : List Str),
      (scoreProduct p keywords : Rat) / 2
        = (keywords.map (keywordContribution p)).sum := by
  intro p keywords
  rw [scoreProduct_eq_sum]
  have hsum : ∀ l : List Str,
      ((l.map (keywordContribution2 p)).sum : Rat)
        = 2 * (l.map (keywordContribution p)).sum := by
    intro l
    induction l with
    | nil => simp
    | cons kw l ih =>
      simp only [List.map_cons, List.sum_cons]
      rw [Nat.cast_add, ih, contribution2_cast]
      ring
  rw [hsum]
  ring

/-- C5 (counterexample): as stated, the claim is false.  With `maxPrice = 0`
supplied (price filtering active, bound `hi = 0`), `find_similar` still
returns the 25000-won tee: Python's `max_price or 1_000_000_000` treats the
given bound `0` as falsy and replaces it with the large sentinel. -/
theorem findSimilar_price_counterexample :
    ("top".data, [{ teeProduct with score := some 2 }]) ∈
      findSimilar [teeProduct] analysisCasual 3 true none (some 0) none ∧
    ¬ (({ teeProduct with score := some 2 } : Product).price ≤ 0) := by
  decide

/-- C5 (amended): when at least one price bound is supplied, every item of
every category list returned by `find_similar` has
`(minPrice or 0) ≤ price ≤ (maxPrice or 10^9)` — i.e. the effective bounds
follow Python `or`, a given bound of `0` counting as absent and the absent
upper bound being the sentinel `1_000_000_000` rather than unbounded. -/
theorem findSimilar_price_bounds_amended :
    ∀ (catalog : List Product) (a : Analysis) (maxPerCat : Nat) (includeScore : Bool)
      (minPrice maxPrice : Option Int) (excludeTags : Option (List Str))
      (cat : Str) (l : List Product),
      (minPrice.isSome ∨ maxPrice.isSome) →
      (cat, l) ∈ findSimilar catalog a maxPerCat includeScore minPrice maxPrice excludeTags →
      ∀ p ∈ l, pyOrInt minPrice 0 ≤ p.price ∧ p.price ≤ pyOrInt maxPrice 1000000000 := by
  intro catalog a maxPerCat includeScore minPrice maxPrice excludeTags cat l hact hmem p hp
  rw [findSimilar] at hmem
  rcases List.mem_map.mp hmem with ⟨c, -, hc⟩
  injection hc with h1 h2
  subst h2
  have key : ∀ q ∈ (pyTagFilter excludeTags (pyPriceFilter minPrice maxPrice
      (search catalog (analysisKeywords a) [c] (maxPerCat * 3) 0))).take maxPerCat,
      pyOrInt minPrice 0 ≤ q.price ∧ q.price ≤ pyOrInt maxPrice 1000000000 := by
    intro q hq
    have hq2 := pyTagFilter_subset _ _ q ((List.take_sublist _ _).subset hq)
    have := mem_pyPriceFilter hact q hq2
    simpa [priceInRange, decide_eq_true_iff] using this
  rw [scoreStrip] at hp
  by_cases hscore : includeScore
  · rw [if_pos hscore] at hp
    exact key p hp
  · rw [if_neg hscore] at hp
    rcases List.mem_map.mp hp with ⟨q, hq, rfl⟩
    exact key q hq

/-- Witness for `findSimilar_price_bounds_amended` with `minPrice = 10`,
applied to the single returned item. -/
theorem findSimilar_price_bounds_witness :
    pyOrInt (some 10) 0 ≤ ({ teeProduct with score := some 2 } : Product).price ∧
    ({ teeProduct with score := some 2 } : Product).price ≤ pyOrInt none 1000000000 :=
  findSimilar_price_bounds_amended [teeProduct] analysisCasual 3 true (some 10) none none
    "top".data [{ teeProduct with score := some 2 }] (Or.inl rfl) (by decide)
    { teeProduct with score := some 2 } (by decide)

/-- C6: a failure classified as credential-invalid ends the key's attempt
loop at once — the trace records the single call, no backoff sleep, and no
further attempt on that key; at the top level (for attempt 1 of the head
key) the run continues immediately with the next key, carrying the error. -/
theorem invalid_key_skips_to_next :
    ∀ (K α : Type) (f : K → Nat → Except Str α) (R : Nat) (k : K) (ks : List K)
      (lastErr : Option Str) (e : Str) (a : Nat) (rest : List Nat),
      (f k a = Except.error e → isInvalidKeyMsg e = true →
        tryKeyAux f R k (a :: rest) = ([GenEvent.call k a], none, some e)) ∧
      (1 ≤ R → f k 1 = Except.error e → isInvalidKeyMsg e = true →
        runKeysAux f R (k :: ks) lastErr =
          (GenEvent.call k 1 :: (runKeysAux f R ks (some e)).1,
            (runKeysAux f R ks (some e)).2)) := by
  intro K α f R k ks lastErr e a rest
  exact ⟨tryKeyAux_invalid rest, runKeysAux_invalid_head ks lastErr⟩

/-- Witness for `invalid_key_skips_to_next`: key 0 is rejected as invalid on
attempt 1 with three retries available; the trace shows one call and an
immediate advance to key 1. -/
theorem invalid_key_skips_to_next_witness :
    tryKeyAux fWitC6 3 0 (1 :: [2, 3]) = ([GenEvent.call 0 1], none,
        some "API key not valid.".data) ∧
    runKeysAux fWitC6 3 [0, 1] none =
      (GenEvent.call 0 1 :: (runKeysAux fWitC6 3 [1] (some "API key not valid.".data)).1,
        (runKeysAux fWitC6 3 [1] (some "API key not valid.".data)).2) :=
  ⟨(invalid_key_skips_to_next Nat Unit fWitC6 3 0 [1] none
      "API key not valid.".data 1 [2, 3]).1 rfl (by decide),
   (invalid_key_skips_to_next Nat Unit fWitC6 3 0 [1] none
      "API key not valid.".data 1 [2, 3]).2 (by decide) rfl (by decide)⟩

/-- C7: when the key list is non-empty, at least one attempt per key is
allowed, and every attempt on every key fails, the loop raises exactly the
error observed on the chronologically last call event of the trace — errors
of earlier keys and earlier attempts are discarded. -/
theorem exhausted_raises_last_error :
    ∀ (K α : Type) (f : K → Nat → Except Str α) (err : K → Nat → Str) (R : Nat)
      (keys : List K),
      keys ≠ [] → 1 ≤ R → (∀ k a, f k a = Except.error (err k a)) →
      ∃ k a, (callsOf (generateTryOn f R keys).1).getLast? = some (k, a) ∧
        (generateTryOn f R keys).2 = Except.error (some (err k a)) := by
  intro K α f err R keys hkeys hR hf
  obtain ⟨k, a, -, hlast, herr⟩ := runKeysAux_allfail hR hf keys none hkeys
  exact ⟨k, a, hlast, herr⟩

/-- Witness for `exhausted_raises_last_error`: two keys, two retries each,
every attempt failing with a distinct message. -/
theorem exhausted_raises_last_error_witness :
    ∃ k a, (callsOf (generateTryOn fW7 2 [0, 1]).1).getLast? = some (k, a) ∧
      (generateTryOn fW7 2 [0, 1]).2 = Except.error (some (errW7 k a)) :=
  exhausted_raises_last_error Nat Unit fW7 errW7 2 [0, 1]
    (by decide) (by decide) (fun k a => rfl)

/-- C8: `LLMRanker.rerank` yields the no-result value (`none`, never an
exception — the embedding is a total function) when the model is
unconfigured, when the external call fails, and when the extracted reply
fails to parse; and the orchestrator maps that no-result value to the
fallback ordering, the first `max_k` candidates per category in score
order. -/
theorem rerank_never_raises_fallback :
    (∀ (callOutcome : Except Str Str) (loads : Str → Option Json) (topK : Nat),
        rerank false callOutcome loads topK = none) ∧
    (∀ (e : Str) (loads : Str → Option Json) (topK : Nat),
        rerank true (Except.error e) loads topK = none) ∧
    (∀ (text : Str) (loads : Str → Option Json) (topK : Nat),
        loads (extractJsonPart text) = none →
        rerank true (Except.ok text) loads topK = none) ∧
    (∀ (candidateRecs : List (Str × List Product)) (maxK : Nat),
        applyRerankResult candidateRecs maxK none
          = candidateRecs.map (fun cp => (cp.1, cp.2.take maxK))) := by
  refine ⟨fun _ _ _ => rfl, fun _ _ _ => rfl, ?_, fun _ _ => rfl⟩
  intro text loads topK h
  rw [rerank]
  simp only [Bool.not_true, Bool.false_eq_true, if_false, h]

/-- Witness for `rerank_never_raises_fallback`: an unparseable plain-text
reply yields `none`. -/
theorem rerank_never_raises_fallback_witness :
    rerank true (Except.ok "hello".data) (fun _ => none) 3 = none :=
  rerank_never_raises_fallback.2.2.1 "hello".data (fun _ => none) 3 rfl

/-- C9 (counterexample): as stated, the claim is false.  On a reply wrapped
in *plain* code fences, llm_ranker.py:130 does not extract the first balanced
`{...}` span: it splits on `"```json"` (absent) and then on `"```"`, keeping
the empty text before the opening fence, while the reply does contain a
balanced, non-empty `{...}` span. -/
theorem rerank_parse_counterexample :
    extractJsonPart fenceReplyC9 = ([] : Str) ∧
    firstBalancedSpan fenceReplyC9 = some "\x7b\"top\": [\"1\"]\x7d".data ∧
    ("\x7b\"top\": [\"1\"]\x7d".data : Str) ≠ ([] : Str) := by
  decide

/-- C9 (amended): the reply is used as-is when (after stripping) it starts
with an opening brace; otherwise, when it contains a fence marker anywhere,
the adapter keeps the text after the *last* `"```json"` and before the next
`"```"` (not the first balanced `{...}` span); otherwise the whole reply —
the result stripped in all three cases.  The parse then expects a JSON object
keyed by the four categories, and every successfully returned per-category
list is the category's (possibly defaulted-empty) array, coerced to strings
with `str` and truncated to at most `top_k` entries. -/
theorem rerank_parse_amended :
    (∀ text : Str, ['\x7b'].isPrefixOf (trimStr text) = true →
        extractJsonPart text = trimStr text) ∧
    (∀ text : Str, ['\x7b'].isPrefixOf (trimStr text) = false →
        strContains text "```".data = true →
        extractJsonPart text = trimStr ((splitOnSep "```".data
          ((splitOnSep "```json".data text).getLastD [])).headD [])) ∧
    (∀ text : Str, ['\x7b'].isPrefixOf (trimStr text) = false →
        strContains text "```".data = false →
        extractJsonPart text = trimStr text) ∧
    (∀ (fs : List (Str × Json)) (topK : Nat) (out : List (Str × List Str)),
        normalizeIds (Json.obj fs) topK = some out →
        ∀ cat ids, (cat, ids) ∈ out →
          ids.length ≤ topK ∧
          ∃ xs, pyIter (pyOrList (objGet fs cat)) = some xs ∧
            ids = (xs.map pyStr).take topK) := by
  refine ⟨?_, ?_, ?_, ?_⟩
  · intro text h
    rw [extractJsonPart, if_pos h]
  · intro text h1 h2
    rw [extractJsonPart, if_neg (by simp [h1]), if_pos h2]
  · intro text h1 h2
    rw [extractJsonPart, if_neg (by simp [h1]), if_neg (by simp [h2])]
  · intro fs topK out hnorm cat ids hmem
    rw [normalizeIds] at hnorm
    rcases ha : pyIter (pyOrList (objGet fs "top".data)) with - | a
    · rw [ha] at hnorm; cases hnorm
    rcases hb : pyIter (pyOrList (objGet fs "pants".data)) with - | b
    · rw [ha, hb] at hnorm; cases hnorm
    rcases hc : pyIter (pyOrList (objGet fs "shoes".data)) with - | c
    · rw [ha, hb, hc] at hnorm; cases hnorm
    rcases hd : pyIter (pyOrList (objGet fs "accessories".data)) with - | d
    · rw [ha, hb, hc, hd] at hnorm; cases hnorm
    rw [ha, hb, hc, hd] at hnorm
    simp only [Option.some_bind, Option.map_some', Option.some.injEq] at hnorm
    subst hnorm
    simp only [List.mem_cons, List.not_mem_nil, or_false] at hmem
    rcases hmem with h | h | h | h
    · injection h with hcat hids
      subst hcat; subst hids
      refine ⟨by simp [List.length_take], a, ha, rfl⟩
    · injection h with hcat hids
      subst hcat; subst hids
      refine ⟨by simp [List.length_take], b, hb, rfl⟩
    · injection h with hcat hids
      subst hcat; subst hids
      refine ⟨by simp [List.length_take], c, hc, rfl⟩
    · injection h with hcat hids
      subst hcat; subst hids
      refine ⟨by simp [List.length_take], d, hd, rfl⟩

/-- Witness for `rerank_parse_amended`: the fenced-reply extraction clause on
a `"```json"`-tagged reply, and the truncation/coercion clause on a two-id
array with `top_k = 1`. -/
theorem rerank_parse_amended_witness :
    (extractJsonPart "reply ```json\n\x7b\x7d\n``` end".data
      = trimStr ((splitOnSep "```".data
          ((splitOnSep "```json".data "reply ```json\n\x7b\x7d\n``` end".data).getLastD
            [])).headD [])) ∧
    (["9".data] : List Str).length ≤ 1 ∧
    ∃ xs, pyIter (pyOrList (objGet fsW9 "top".data)) = some xs ∧
      ["9".data] = (xs.map pyStr).take 1 :=
  ⟨rerank_parse_amended.2.1 "reply ```json\n\x7b\x7d\n``` end".data (by decide) (by decide),
   rerank_parse_amended.2.2.2 fsW9 1 outW9 (by decide) "top".data ["9".data] (by decide)⟩

/-- C10: no read operation mutates the catalog snapshot.  At the heap level,
`search` and `find_similar` leave the catalog address list unchanged and the
pre-existing heap cells intact (the old heap is a prefix of the new one:
`search` writes the `"score"` key only into freshly allocated copies, and
`find_similar` with `include_score = False` pops `"score"` only at those
fresh addresses), while `get_all` and `stats` are pure reads. -/
theorem reads_do_not_mutate_catalog :
    (∀ (st : Svc) (keywords cats : List Str) (maxResults : Nat) (thr : Rat),
      (searchH st keywords cats maxResults thr).2.catalog = st.catalog ∧
      (searchH st keywords cats maxResults thr).2.heap.take st.heap.length = st.heap) ∧
    (∀ (st : Svc) (a : Analysis) (maxPerCat : Nat) (includeScore : Bool)
        (minPrice maxPrice : Option Int) (excludeTags : Option (List Str)),
      (findSimilarH st a maxPerCat includeScore minPrice maxPrice excludeTags).2.catalog
        = st.catalog ∧
      (findSimilarH st a maxPerCat includeScore minPrice maxPrice
        excludeTags).2.heap.take st.heap.length = st.heap) ∧
    (∀ st : Svc, getAllH st = (st.catalog, st)) ∧
    (∀ st : Svc, (statsH st).2 = st) := by
  refine ⟨?_, ?_, fun _ => rfl, fun _ => rfl⟩
  · intro st keywords cats maxResults thr
    refine ⟨rfl, ?_⟩
    obtain ⟨ext, hext⟩ := searchH_heap_frame st keywords cats maxResults thr
    rw [hext, List.take_left]
  · intro st a maxPerCat includeScore minPrice maxPrice excludeTags
    obtain ⟨hcat, hheap⟩ := findSimilarHAux_frame (analysisKeywords a) maxPerCat includeScore
      minPrice maxPrice excludeTags defaultCategories st
    refine ⟨hcat, ?_⟩
    obtain ⟨htake, -⟩ := hheap st.heap.length (le_refl _)
    rw [findSimilarH, htake, List.take_length]
